import Mathlib

/-!
Shallow embedding of the expvar package (registry of exported variables).

Go interface values holding pointers are modelled as references (indices)
into an explicit heap of variable values.  The sequential projection of
each operation is embedded: each Go method reading and updating the
sync.Map and the sorted key slice becomes a pure function on an explicit
state.  Machine integers (int64) are modelled as Int with explicit
wrap-around at 2^64; float64 values are modelled as Rat (the bit-level
IEEE representation is abstracted, the control flow of every operation is
kept).
-/

namespace Expvar

/-- A reference to a variable value in the heap; models a Go `Var`
interface value holding a pointer. -/
abbrev Ref := Nat

/-- Wrap-around of 64-bit signed integer arithmetic, as performed by
`atomic.AddInt64`. -/
def wrap64 (i : Int) : Int := (i + 2 ^ 63) % 2 ^ 64 - 2 ^ 63

/-- Lexicographic comparison of character lists; models Go's byte-wise
string comparison (on UTF-8 strings the byte order and the codepoint
order coincide). -/
def charsLt : List Char → List Char → Bool
  | [], [] => false
  | [], _ :: _ => true
  | _ :: _, [] => false
  | a :: as, b :: bs => if a < b then true else if b < a then false else charsLt as bs

/-- Go's `<` on strings. -/
def strLt (a b : String) : Bool := charsLt a.data b.data

/-- Go's `<=` on strings. -/
def strLe (a b : String) : Bool := ! strLt b a

/-- The strict key order as a proposition. -/
def keyLt (a b : String) : Prop := strLt a b = true

/-- The reflexive key order as a proposition. -/
def keyLe (a b : String) : Prop := strLe a b = true

instance decKeyLt : DecidableRel keyLt := fun _x _y => inferInstanceAs (Decidable (_ = true))

instance decKeyLe : DecidableRel keyLe := fun _x _y => inferInstanceAs (Decidable (_ = true))

/-- Model of Go `sort.SearchStrings a x` (from its contract): the smallest
index i with x ≤ a i, or the length of a when there is none.  On a sorted
slice this is exactly what the binary search in the source computes. -/
def searchStrings (a : List String) (x : String) : Nat :=
  match a with
  | [] => 0
  | s :: rest => if strLe x s then 0 else searchStrings rest x + 1

/-- Lookup in the key-to-reference association store; models
`sync.Map.Load` (keys are unique in every reachable store). -/
def lookupStore : List (String × Ref) → String → Option Ref
  | [], _ => none
  | (k1, r) :: rest, key => if k1 = key then some r else lookupStore rest key

/-- Insert-or-replace in the association store; models `sync.Map.Store`
(and the winning branch of `LoadOrStore`). -/
def storeSet : List (String × Ref) → String → Ref → List (String × Ref)
  | [], key, r => [(key, r)]
  | (k1, r1) :: rest, key, r =>
    if k1 = key then (k1, r) :: rest else (k1, r1) :: storeSet rest key r

/-- Removal from the association store; models `sync.Map.Delete`. -/
def storeDelete : List (String × Ref) → String → List (String × Ref)
  | [], _ => []
  | (k1, r1) :: rest, key =>
    if k1 = key then storeDelete rest key else (k1, r1) :: storeDelete rest key

/-- State of a `Map`: the key-to-Var store `m` (a sync.Map in the source)
and the sorted key slice `keys`. -/
structure MapState where
  m : List (String × Ref)
  keys : List String
deriving DecidableEq, Repr

/-- State of the `Bucket` registry: the name-to-Var store `vars` and the
sorted key slice `varKeys`. -/
structure BucketState where
  vars : List (String × Ref)
  varKeys : List String
deriving DecidableEq, Repr

/-- A variable value, the dynamic content behind a `Var` interface.
`strV none` is a `String` whose atomic.Value was never set; `funcV r`
is a `Func` whose result marshals to `r` (`none` when `json.Marshal`
of the function result fails). -/
inductive VarVal where
  | intV (i : Int)
  | floatV (x : Rat)
  | strV (s : Option String)
  | mapV (st : MapState)
  | funcV (r : Option String)
deriving DecidableEq, Repr

/-- The heap of allocated variable values. -/
abbrev Heap := List VarVal

/-! ### Map operations (from the source) -/

/-- `Map.addKey`: binary search for the insertion point in the sorted
slice; append at the end, shift-and-insert in the middle, or no-op when
the key is already present.  Stated on the keys slice. -/
def addKeyList (keys : List String) (key : String) : List String :=
  let i := searchStrings keys key
  if i ≥ keys.length then keys ++ [key]
  else if keys.get? i ≠ some key then keys.take i ++ key :: keys.drop i
  else keys

/-- `Map.Get`: `sync.Map.Load` plus a nil-safe type assertion; returns the
stored Var reference or nothing. -/
def mapGet (st : MapState) (key : String) : Option Ref :=
  lookupStore st.m key

/-- `Map.Set` (sequential projection): when the key is absent the
`LoadOrStore` wins, stores the value and inserts the key into the index;
when present the value is replaced without touching the index. -/
def mapSet (st : MapState) (key : String) (av : Ref) : MapState :=
  if (lookupStore st.m key).isNone then
    { m := storeSet st.m key av, keys := addKeyList st.keys key }
  else
    { st with m := storeSet st.m key av }

/-- `Map.Add` (sequential projection): on a miss, `LoadOrStore(key,
new(Int))` allocates a zero Int, stores it and adds the key to the index;
then the loaded value gets delta added when it is an Int and is left
untouched otherwise. -/
def mapAdd (st : MapState) (h : Heap) (key : String) (delta : Int) :
    MapState × Heap :=
  match lookupStore st.m key with
  | some r =>
    match h.get? r with
    | some (VarVal.intV n) => (st, h.set r (VarVal.intV (wrap64 (n + delta))))
    | _ => (st, h)
  | none =>
    let r := h.length
    let st1 : MapState := { m := storeSet st.m key r, keys := addKeyList st.keys key }
    let h1 := h ++ [VarVal.intV 0]
    (st1, h1.set r (VarVal.intV (wrap64 (0 + delta))))

/-- `Map.AddFloat` (sequential projection), same shape as `Map.Add` with a
fresh zero Float on a miss. -/
def mapAddFloat (st : MapState) (h : Heap) (key : String) (delta : Rat) :
    MapState × Heap :=
  match lookupStore st.m key with
  | some r =>
    match h.get? r with
    | some (VarVal.floatV x) => (st, h.set r (VarVal.floatV (x + delta)))
    | _ => (st, h)
  | none =>
    let r := h.length
    let st1 : MapState := { m := storeSet st.m key r, keys := addKeyList st.keys key }
    let h1 := h ++ [VarVal.floatV 0]
    (st1, h1.set r (VarVal.floatV (0 + delta)))

/-- `Map.Delete`: search the key index; only when the key is found there
is it removed from the slice and from the store. -/
def mapDelete (st : MapState) (key : String) : MapState :=
  let i := searchStrings st.keys key
  if i < st.keys.length ∧ st.keys.get? i = some key then
    { keys := st.keys.eraseIdx i, m := storeDelete st.m key }
  else st

/-- `Map.Init`: clears the key slice and deletes every key of the store. -/
def mapInit (_st : MapState) : MapState := { m := [], keys := [] }

/-! ### Scalar variables and serialization -/

/-- One hexadecimal digit (lower case), for escape sequences. -/
def hexDigit (n : Nat) : Char :=
  if n < 10 then Char.ofNat (48 + n) else Char.ofNat (87 + n % 16)

/-- A JSON unicode escape for a character code. -/
def uEscape (n : Nat) : String :=
  String.mk ['\\', 'u', hexDigit (n / 4096 % 16), hexDigit (n / 256 % 16),
    hexDigit (n / 16 % 16), hexDigit (n % 16)]

/-- Escaping of one character as performed by `json.Marshal` on strings
(quotation mark, backslash, controls, and the HTML characters). -/
def jsonEscapeChar (c : Char) : String :=
  if c = '"' then "\\\""
  else if c = '\\' then "\\\\"
  else if c = '\n' then "\\n"
  else if c = '\r' then "\\r"
  else if c = '\t' then "\\t"
  else if c.toNat < 32 then uEscape c.toNat
  else if c = '<' ∨ c = '>' ∨ c = '&' then uEscape c.toNat
  else String.singleton c

/-- Model of `json.Marshal` applied to a Go string: the quoted and
escaped form. -/
def jsonQuote (s : String) : String :=
  "\"" ++ String.join (s.data.map jsonEscapeChar) ++ "\""

/-- Escaping of one character under Go's `%q` verb (Go syntax quoting;
it does not escape the HTML characters). -/
def goEscapeChar (c : Char) : String :=
  if c = '"' then "\\\""
  else if c = '\\' then "\\\\"
  else if c = '\n' then "\\n"
  else if c = '\r' then "\\r"
  else if c = '\t' then "\\t"
  else if c.toNat < 32 then uEscape c.toNat
  else String.singleton c

/-- Model of `fmt`'s `%q` verb on a string. -/
def goQuote (s : String) : String :=
  "\"" ++ String.join (s.data.map goEscapeChar) ++ "\""

/-- `Int.String`: `strconv.FormatInt(i, 10)`. -/
def intString (i : Int) : String := toString i

/-- Model of `strconv.FormatFloat(x, g, -1, 64)` over the rational model
of float64 (the exact decimal rendering is abstract; no claim inspects
it). -/
def floatFormat (x : Rat) : String := toString x

/-- `String.Value`: the stored string, or the empty string when the
atomic.Value was never set (its Load yields nil and the type assertion
with the comma-ok form yields the zero value). -/
def stringValue (s : Option String) : String := s.getD ""

/-- `String.String`: `json.Marshal` of the current value (the error is
discarded; marshalling a Go string cannot fail). -/
def stringString (s : Option String) : String := jsonQuote (stringValue s)

/-- `Func.String`: `json.Marshal` of the function result, errors
discarded; on error the nil byte slice converts to the empty string. -/
def funcString (r : Option String) : String := r.getD ""

/-- Model of `json.Marshal` applied to a `Var` interface value, as done
in `Map.String`.  Int, Float and String have MarshalJSON methods
delegating to their values; a `*Map` is a struct with only unexported
fields and marshals to an empty object; a `Func` is a function value,
which `json.Marshal` rejects with `UnsupportedTypeError`. -/
def marshalVar : VarVal → Option String
  | VarVal.intV i => some (intString i)
  | VarVal.floatV x => some (floatFormat x)
  | VarVal.strV s => some (jsonQuote (stringValue s))
  | VarVal.mapV _ => some "\x7b\x7d"
  | VarVal.funcV _ => none

/-! ### Iteration and rendering -/

/-- The common body of `Map.Do` and `Bucket.Do`: walk the sorted key
slice, load each key from the store and hand the pair to the visitor.
The load result is type-asserted without the comma-ok form, so a key
without a loadable value is a panic, modelled as `none`. -/
def doWalk (h : Heap) (store : List (String × Ref)) :
    List String → Option (List (String × VarVal))
  | [] => some []
  | k :: ks =>
    match lookupStore store k with
    | none => none
    | some r =>
      match h.get? r with
      | none => none
      | some v => (doWalk h store ks).map (fun kvs => (k, v) :: kvs)

/-- `Map.Do`: the visited (key, value) sequence, or `none` on the panic
of the unchecked type assertion. -/
def mapDo (st : MapState) (h : Heap) : Option (List (String × VarVal)) :=
  doWalk h st.m st.keys

/-- The visitor accumulation of `Map.String`: the separator is written
before the marshal attempt, and an entry whose value fails to marshal
returns early, leaving `first` unchanged. -/
def mapStringKVs (kvs : List (String × VarVal)) : String :=
  let step := fun (acc : String × Bool) (kv : String × VarVal) =>
    let b := if acc.2 then acc.1 else acc.1 ++ ", "
    match marshalVar kv.2 with
    | none => (b, acc.2)
    | some val => (b ++ goQuote kv.1 ++ ": " ++ val, false)
  let r := kvs.foldl step ("", true)
  "\x7b" ++ r.1 ++ "\x7d"

/-- `Map.String`: brace, the `Do` walk with the visitor above, brace. -/
def mapString (st : MapState) (h : Heap) : Option String :=
  (mapDo st h).map mapStringKVs

/-- The `Var` interface method `String()` of each variable kind.  For a
nested `Map` this is `Map.String`, whose `Do` may panic, hence the
option. -/
def varString (h : Heap) : VarVal → Option String
  | VarVal.intV i => some (intString i)
  | VarVal.floatV x => some (floatFormat x)
  | VarVal.strV s => some (stringString s)
  | VarVal.mapV st => mapString st h
  | VarVal.funcV r => some (funcString r)

/-! ### Bucket operations (from the source) -/

/-- Model of Go `sort.Strings` (from its contract): sort ascending in the
byte-wise string order. -/
def sortStrings (l : List String) : List String := l.insertionSort keyLe

/-- `Bucket.Publish`: `LoadOrStore` into the store; a duplicate name is a
`log.Panicln`, modelled as `none` (the store is unchanged by a losing
`LoadOrStore`); otherwise the name is appended to the key slice, which is
then re-sorted. -/
def bucketPublish (st : BucketState) (name : String) (v : Ref) :
    Option BucketState :=
  match lookupStore st.vars name with
  | some _ => none
  | none =>
    some { vars := storeSet st.vars name v,
           varKeys := sortStrings (st.varKeys ++ [name]) }

/-- `Bucket.Get`: `Load` plus a nil-safe type assertion. -/
def bucketGet (st : BucketState) (name : String) : Option Ref :=
  lookupStore st.vars name

/-- `Bucket.Do`: same walk as `Map.Do` over the registry's own store and
key slice. -/
def bucketDo (st : BucketState) (h : Heap) : Option (List (String × VarVal)) :=
  doWalk h st.vars st.varKeys

/-- `Bucket.NewInt`: return the existing variable when the name is bound
(the type assertion `v.(*Int)` panics on any other kind, modelled as
`none`); otherwise allocate a fresh zero Int, publish and return it. -/
def bucketNewInt (st : BucketState) (h : Heap) (name : String) :
    Option (Ref × BucketState × Heap) :=
  match bucketGet st name with
  | some r =>
    match h.get? r with
    | some (VarVal.intV _) => some (r, st, h)
    | _ => none
  | none =>
    (bucketPublish st name h.length).map (fun st1 => (h.length, st1, h ++ [VarVal.intV 0]))

/-- `Bucket.NewFloat`: the source allocates the fresh Float before the
`Get` check (the shadowed inner variable), so the allocation happens on
every call; on a hit the existing variable is returned and the fresh one
is garbage. -/
def bucketNewFloat (st : BucketState) (h : Heap) (name : String) :
    Option (Ref × BucketState × Heap) :=
  let h1 := h ++ [VarVal.floatV 0]
  match bucketGet st name with
  | some r =>
    match h1.get? r with
    | some (VarVal.floatV _) => some (r, st, h1)
    | _ => none
  | none =>
    (bucketPublish st name h.length).map (fun st1 => (h.length, st1, h1))

/-- `Bucket.NewString`: same shape as `Bucket.NewInt`. -/
def bucketNewString (st : BucketState) (h : Heap) (name : String) :
    Option (Ref × BucketState × Heap) :=
  match bucketGet st name with
  | some r =>
    match h.get? r with
    | some (VarVal.strV _) => some (r, st, h)
    | _ => none
  | none =>
    (bucketPublish st name h.length).map
      (fun st1 => (h.length, st1, h ++ [VarVal.strV none]))

/-- `Bucket.NewMap`: same shape as `Bucket.NewInt` with a fresh empty
Map. -/
def bucketNewMap (st : BucketState) (h : Heap) (name : String) :
    Option (Ref × BucketState × Heap) :=
  match bucketGet st name with
  | some r =>
    match h.get? r with
    | some (VarVal.mapV _) => some (r, st, h)
    | _ => none
  | none =>
    (bucketPublish st name h.length).map
      (fun st1 => (h.length, st1, h ++ [VarVal.mapV { m := [], keys := [] }]))

/-- The accumulation of `expvarHandler`: open brace and newline, each
entry as quoted key, colon-space, and the value's own `String()`, joined
by comma-newline, then newline, close brace, newline. -/
def handlerWalk (h : Heap) :
    List (String × VarVal) → String → Bool → Option String
  | [], b, _ => some (b ++ "\n\x7d\n")
  | kv :: rest, b, first =>
    match varString h kv.2 with
    | none => none
    | some s =>
      handlerWalk h rest
        ((if first then b else b ++ ",\n") ++ goQuote kv.1 ++ ": " ++ s) false

/-- `expvarHandler`: render the whole registry document. -/
def expvarRender (st : BucketState) (h : Heap) : Option String :=
  (bucketDo st h).bind (fun kvs => handlerWalk h kvs "\x7b\n" true)

/-! ### A JSON validity checker

A small recursive-descent recognizer for JSON documents, used to state
that certain rendered outputs are or are not valid JSON. -/

/-- Skip JSON whitespace. -/
def skipWs : List Char → List Char
  | [] => []
  | c :: rest =>
    if c = ' ' ∨ c = '\n' ∨ c = '\t' ∨ c = '\r' then skipWs rest else c :: rest

/-- A hexadecimal digit. -/
def isHexChar (c : Char) : Bool :=
  c.isDigit ∨ (97 ≤ c.toNat ∧ c.toNat ≤ 102) ∨ (65 ≤ c.toNat ∧ c.toNat ≤ 70)

/-- Recognize the rest of a JSON string literal after the opening quote;
yields the remaining input past the closing quote. -/
def jsonStringBody : List Char → Option (List Char)
  | [] => none
  | c :: rest =>
    if c = '"' then some rest
    else if c = '\\' then
      match rest with
      | [] => none
      | e :: rest2 =>
        if e = 'u' then
          match rest2 with
          | h1 :: h2 :: h3 :: h4 :: rest3 =>
            if isHexChar h1 ∧ isHexChar h2 ∧ isHexChar h3 ∧ isHexChar h4 then
              jsonStringBody rest3
            else none
          | _ => none
        else if e = '"' ∨ e = '\\' ∨ e = '/' ∨ e = 'b' ∨ e = 'f' ∨ e = 'n' ∨
            e = 'r' ∨ e = 't' then
          jsonStringBody rest2
        else none
    else if c.toNat < 32 then none
    else jsonStringBody rest

/-- A character that may appear in a JSON number. -/
def isNumChar (c : Char) : Bool :=
  c.isDigit ∨ c = '-' ∨ c = '+' ∨ c = '.' ∨ c = 'e' ∨ c = 'E'

/-- Consume a run of number characters. -/
def numRest : List Char → List Char
  | [] => []
  | c :: rest => if isNumChar c then numRest rest else c :: rest

/-- Recognizer mode: a value, the members of an object, or the elements
of an array (with a flag telling whether a closing bracket may come
immediately). -/
inductive PMode where
  | value
  | members (first : Bool)
  | elems (first : Bool)

/-- The recognizer.  In member and element modes the input is expected
with leading whitespace already skipped. -/
def parseJ : Nat → PMode → List Char → Option (List Char)
  | 0, _, _ => none
  | fuel + 1, PMode.value, cs =>
    match skipWs cs with
    | 't' :: 'r' :: 'u' :: 'e' :: r2 => some r2
    | 'f' :: 'a' :: 'l' :: 's' :: 'e' :: r2 => some r2
    | 'n' :: 'u' :: 'l' :: 'l' :: r2 => some r2
    | c :: rest =>
      if c = '"' then jsonStringBody rest
      else if c = '\x7b' then parseJ fuel (PMode.members true) (skipWs rest)
      else if c = '[' then parseJ fuel (PMode.elems true) (skipWs rest)
      else if c.isDigit ∨ c = '-' then some (numRest (c :: rest))
      else none
    | [] => none
  | fuel + 1, PMode.members first, cs =>
    match cs with
    | '\x7d' :: rest => if first then some rest else none
    | '"' :: rest =>
      match jsonStringBody rest with
      | none => none
      | some r1 =>
        match skipWs r1 with
        | ':' :: r2 =>
          match parseJ fuel PMode.value r2 with
          | none => none
          | some r3 =>
            match skipWs r3 with
            | '\x7d' :: r4 => some r4
            | ',' :: r4 => parseJ fuel (PMode.members false) (skipWs r4)
            | _ => none
        | _ => none
    | _ => none
  | fuel + 1, PMode.elems first, cs =>
    match cs with
    | ']' :: rest => if first then some rest else none
    | _ =>
      match parseJ fuel PMode.value cs with
      | none => none
      | some r1 =>
        match skipWs r1 with
        | ']' :: r2 => some r2
        | ',' :: r2 => parseJ fuel (PMode.elems false) (skipWs r2)
        | _ => none

/-- A string is a valid JSON document when one JSON value followed by
whitespace consumes it entirely. -/
def jsonValid (s : String) : Bool :=
  match parseJ (s.length + 1) PMode.value s.data with
  | some rest => (skipWs rest).isEmpty
  | none => false

/-! ### Order lemmas for the byte-wise string comparison -/

theorem charsLt_irrefl (l : List Char) : charsLt l l = false := by
  induction l with
  | nil => rfl
  | cons a as ih => simp [charsLt, lt_irrefl, ih]

theorem charsLt_trans {a b c : List Char} (h1 : charsLt a b = true)
    (h2 : charsLt b c = true) : charsLt a c = true := by
  induction a generalizing b c with
  | nil =>
    cases b with
    | nil => simp [charsLt] at h1
    | cons y ys =>
      cases c with
      | nil => simp [charsLt] at h2
      | cons z zs => simp [charsLt]
  | cons x xs ih =>
    cases b with
    | nil => simp [charsLt] at h1
    | cons y ys =>
      cases c with
      | nil => simp [charsLt] at h2
      | cons z zs =>
        simp only [charsLt] at h1 h2 ⊢
        split_ifs at h1 with hxy hyx
        · split_ifs at h2 with hyz hzy
          · simp [lt_trans hxy hyz]
          · have hyz2 : y = z := le_antisymm (not_lt.mp hzy) (not_lt.mp hyz)
            subst hyz2
            simp [hxy]
        · have hxy2 : x = y := le_antisymm (not_lt.mp hyx) (not_lt.mp hxy)
          subst hxy2
          split_ifs at h2 with hyz hzy
          · simp [hyz]
          · have hyz2 : x = z := le_antisymm (not_lt.mp hzy) (not_lt.mp hyz)
            subst hyz2
            simp [lt_irrefl]
            exact ih h1 h2

theorem charsLt_conn {a b : List Char} (h1 : charsLt a b = false)
    (h2 : charsLt b a = false) : a = b := by
  induction a generalizing b with
  | nil =>
    cases b with
    | nil => rfl
    | cons y ys => simp [charsLt] at h1
  | cons x xs ih =>
    cases b with
    | nil => simp [charsLt] at h2
    | cons y ys =>
      simp only [charsLt] at h1 h2
      split_ifs at h1 with hxy hyx
      · simp [charsLt, hyx] at h2
      · have hxy2 : x = y := le_antisymm (not_lt.mp hyx) (not_lt.mp hxy)
        subst hxy2
        simp only [lt_irrefl, if_false] at h2
        rw [ih h1 h2]

theorem keyLt_irrefl (s : String) : ¬ keyLt s s := by
  simp [keyLt, strLt, charsLt_irrefl]

theorem keyLt_trans {a b c : String} (h1 : keyLt a b) (h2 : keyLt b c) :
    keyLt a c := charsLt_trans h1 h2

theorem keyLt_asymm {a b : String} (h1 : keyLt a b) (h2 : keyLt b a) : False :=
  keyLt_irrefl a (keyLt_trans h1 h2)

theorem eq_of_not_keyLt {a b : String} (h1 : ¬ keyLt a b) (h2 : ¬ keyLt b a) :
    a = b := by
  have e : a.data = b.data :=
    charsLt_conn (Bool.not_eq_true _ ▸ h1) (Bool.not_eq_true _ ▸ h2)
  cases a with
  | mk da =>
    cases b with
    | mk db => exact congrArg String.mk e

theorem keyLe_iff_not_lt {a b : String} : keyLe a b ↔ ¬ keyLt b a := by
  unfold keyLe keyLt strLe
  cases strLt b a <;> simp

theorem keyLt_of_keyLe_of_ne {a b : String} (h1 : keyLe a b) (h2 : a ≠ b) :
    keyLt a b := by
  by_cases h : keyLt a b
  · exact h
  · exact absurd (eq_of_not_keyLt h (keyLe_iff_not_lt.mp h1)) h2

theorem keyLe_of_keyLt {a b : String} (h : keyLt a b) : keyLe a b :=
  keyLe_iff_not_lt.mpr (fun h2 => keyLt_asymm h h2)

theorem keyLe_refl (a : String) : keyLe a a :=
  keyLe_iff_not_lt.mpr (keyLt_irrefl a)

theorem keyLt_of_not_keyLe {a b : String} (h : ¬ keyLe a b) : keyLt b a := by
  by_cases h2 : keyLt b a
  · exact h2
  · exact absurd (keyLe_iff_not_lt.mpr h2) h

instance : IsTrans String keyLe where
  trans := by
    intro a b c hab hbc
    rw [keyLe_iff_not_lt] at hab hbc ⊢
    intro hca
    by_cases hcb : keyLt c b
    · exact hbc hcb
    · by_cases hbcs : keyLt b c
      · exact hab (keyLt_trans hbcs hca)
      · have e : b = c := eq_of_not_keyLt hbcs hcb
        exact hab (by rw [e]; exact hca)

instance : IsTotal String keyLe where
  total := by
    intro a b
    by_cases h : keyLt b a
    · exact Or.inr (keyLe_of_keyLt h)
    · exact Or.inl (keyLe_iff_not_lt.mpr h)

theorem pairwise_keyLt_of_le_nodup {l : List String}
    (h1 : List.Pairwise keyLe l) (h2 : l.Nodup) : List.Pairwise keyLt l :=
  (h1.and h2).imp (fun hab => keyLt_of_keyLe_of_ne hab.1 hab.2)

theorem nodup_of_pairwise_keyLt {l : List String}
    (h : List.Pairwise keyLt l) : l.Nodup :=
  h.imp (fun hab => by
    intro he
    exact keyLt_irrefl _ (he ▸ hab))

/-! ### Lemmas about the key slice and the store -/

theorem addKeyList_nil (key : String) : addKeyList [] key = [key] := rfl

theorem addKeyList_cons (s : String) (rest : List String) (key : String) :
    addKeyList (s :: rest) key =
      if strLe key s then (if s = key then s :: rest else key :: s :: rest)
      else s :: addKeyList rest key := by
  by_cases hks : strLe key s = true
  · have hs0 : searchStrings (s :: rest) key = 0 := by
      simp [searchStrings, hks]
    by_cases hsk : s = key
    · rw [if_pos hks, if_pos hsk]
      simp only [addKeyList, hs0]
      rw [if_neg (by simp only [List.length_cons]; omega :
        ¬ (0 : Nat) ≥ (s :: rest).length)]
      rw [if_neg (by simp [hsk] : ¬ ((s :: rest).get? 0 ≠ some key))]
    · rw [if_pos hks, if_neg hsk]
      simp only [addKeyList, hs0]
      rw [if_neg (by simp only [List.length_cons]; omega :
        ¬ (0 : Nat) ≥ (s :: rest).length)]
      rw [if_pos (by simp [hsk] : (s :: rest).get? 0 ≠ some key)]
      rfl
  · rw [if_neg hks]
    have hsearch : searchStrings (s :: rest) key = searchStrings rest key + 1 := by
      simp [searchStrings, hks]
    simp only [addKeyList, hsearch]
    have hget : (s :: rest).get? (searchStrings rest key + 1) =
        rest.get? (searchStrings rest key) := rfl
    have htake : (s :: rest).take (searchStrings rest key + 1) =
        s :: rest.take (searchStrings rest key) := rfl
    have hdrop : (s :: rest).drop (searchStrings rest key + 1) =
        rest.drop (searchStrings rest key) := rfl
    rw [hget, htake, hdrop]
    by_cases h1 : rest.length ≤ searchStrings rest key
    · rw [if_pos (by simp only [List.length_cons]; omega :
        searchStrings rest key + 1 ≥ (s :: rest).length)]
      rw [if_pos (h1 : searchStrings rest key ≥ rest.length)]
      rfl
    · rw [if_neg (by simp only [List.length_cons]; omega :
        ¬ searchStrings rest key + 1 ≥ (s :: rest).length)]
      rw [if_neg (h1 : ¬ searchStrings rest key ≥ rest.length)]
      by_cases h2 : rest.get? (searchStrings rest key) = some key
      · rw [if_neg (fun hc => hc h2), if_neg (fun hc => hc h2)]
      · rw [if_pos h2, if_pos h2]
        rfl

theorem mem_addKeyList (l : List String) (key k : String) :
    k ∈ addKeyList l key ↔ k ∈ l ∨ k = key := by
  induction l with
  | nil => simp [addKeyList_nil]
  | cons s rest ih =>
    rw [addKeyList_cons]
    split_ifs with hle hsk
    · subst hsk
      simp only [List.mem_cons]
      tauto
    · simp only [List.mem_cons]
      tauto
    · simp only [List.mem_cons, ih]
      tauto

theorem sorted_addKeyList (l : List String) (key : String)
    (hs : List.Pairwise keyLt l) : List.Pairwise keyLt (addKeyList l key) := by
  induction l with
  | nil => simp [addKeyList_nil]
  | cons s rest ih =>
    rw [List.pairwise_cons] at hs
    rw [addKeyList_cons]
    split_ifs with hle hsk
    · exact List.pairwise_cons.mpr hs
    · refine List.pairwise_cons.mpr ⟨?_, List.pairwise_cons.mpr hs⟩
      intro b hb
      have hkey : keyLt key s :=
        keyLt_of_keyLe_of_ne hle (fun he => hsk he.symm)
      rcases List.mem_cons.mp hb with hb | hb
      · rw [hb]
        exact hkey
      · exact keyLt_trans hkey (hs.1 b hb)
    · refine List.pairwise_cons.mpr ⟨?_, ih hs.2⟩
      intro b hb
      rcases (mem_addKeyList rest key b).mp hb with hb | hb
      · exact hs.1 b hb
      · rw [hb]
        exact keyLt_of_not_keyLe hle

theorem lookup_storeSet (l : List (String × Ref)) (key k : String) (r : Ref) :
    lookupStore (storeSet l key r) k =
      if k = key then some r else lookupStore l k := by
  induction l with
  | nil =>
    by_cases h : k = key
    · subst h
      simp [storeSet, lookupStore]
    · have h2 : ¬ key = k := fun hh => h hh.symm
      simp [storeSet, lookupStore, h, h2]
  | cons p rest ih =>
    obtain ⟨k1, r1⟩ := p
    by_cases h1 : k1 = key
    · subst h1
      by_cases h2 : k = k1
      · subst h2
        simp [storeSet, lookupStore]
      · have h2b : ¬ k1 = k := fun hh => h2 hh.symm
        simp [storeSet, lookupStore, h2, h2b]
    · by_cases h2 : k1 = k
      · subst h2
        have h3 : ¬ k1 = key := h1
        simp [storeSet, lookupStore, h1, fun hh : k1 = key => h1 hh]
      · simp [storeSet, lookupStore, h1, h2, ih]

theorem lookup_storeDelete (l : List (String × Ref)) (key k : String) :
    lookupStore (storeDelete l key) k =
      if k = key then none else lookupStore l k := by
  induction l with
  | nil => simp [storeDelete, lookupStore]
  | cons p rest ih =>
    obtain ⟨k1, r1⟩ := p
    by_cases h1 : k1 = key
    · subst h1
      rw [show storeDelete ((k1, r1) :: rest) k1 = storeDelete rest k1 from by
        simp [storeDelete]]
      rw [ih]
      by_cases h2 : k = k1
      · simp [h2]
      · have h2b : ¬ k1 = k := fun hh => h2 hh.symm
        simp [lookupStore, h2, h2b]
    · rw [show storeDelete ((k1, r1) :: rest) key = (k1, r1) :: storeDelete rest key
        from by simp [storeDelete, h1]]
      by_cases h2 : k1 = k
      · subst h2
        have h3 : ¬ k1 = key := h1
        simp [lookupStore, h3]
      · simp [lookupStore, h2, ih]

theorem delete_cond_spec (l : List String) (key : String)
    (hs : List.Pairwise keyLt l) :
    ((searchStrings l key < l.length ∧
        l.get? (searchStrings l key) = some key) ↔ key ∈ l) ∧
    (key ∈ l → l.eraseIdx (searchStrings l key) = l.erase key) := by
  induction l with
  | nil => simp [searchStrings]
  | cons s rest ih =>
    rw [List.pairwise_cons] at hs
    obtain ⟨ihc, ihe⟩ := ih hs.2
    by_cases hks : strLe key s = true
    · have hsearch : searchStrings (s :: rest) key = 0 := by
        simp [searchStrings, hks]
      by_cases hsk : s = key
      · constructor
        · rw [hsearch]
          constructor
          · intro _
            exact List.mem_cons.mpr (Or.inl hsk.symm)
          · intro _
            refine ⟨by simp, ?_⟩
            show some s = some key
            rw [hsk]
        · intro _
          rw [hsearch]
          have e1 : (s :: rest).eraseIdx 0 = rest := rfl
          rw [e1, List.erase_cons, if_pos (by simp [hsk])]
      · have hlt : keyLt key s :=
          keyLt_of_keyLe_of_ne hks (fun he => hsk he.symm)
        have hnm : key ∉ s :: rest := by
          intro hm
          rcases List.mem_cons.mp hm with hm | hm
          · exact hsk hm.symm
          · exact keyLt_asymm hlt (hs.1 key hm)
        constructor
        · rw [hsearch]
          constructor
          · intro h
            have h2 : some s = some key := h.2
            exact absurd (Option.some.inj h2) hsk
          · intro h
            exact absurd h hnm
        · intro h
          exact absurd h hnm
    · have hslt : keyLt s key := keyLt_of_not_keyLe hks
      have hsk : s ≠ key := by
        intro he
        subst he
        exact keyLt_irrefl s hslt
      have hsearch : searchStrings (s :: rest) key = searchStrings rest key + 1 := by
        simp [searchStrings, hks]
      have hg : (s :: rest).get? (searchStrings rest key + 1) =
          rest.get? (searchStrings rest key) := rfl
      constructor
      · rw [hsearch, hg]
        simp only [List.length_cons, List.mem_cons]
        constructor
        · intro h
          exact Or.inr (ihc.mp ⟨by omega, h.2⟩)
        · intro h
          rcases h with h | h
          · exact absurd h.symm hsk
          · have h2 := ihc.mpr h
            exact ⟨by omega, h2.2⟩
      · intro h
        have hmem : key ∈ rest := by
          rcases List.mem_cons.mp h with h | h
          · exact absurd h.symm hsk
          · exact h
        rw [hsearch]
        have e1 : (s :: rest).eraseIdx (searchStrings rest key + 1) =
            s :: rest.eraseIdx (searchStrings rest key) := rfl
        rw [e1, ihe hmem, List.erase_cons]
        simp [hsk]

/-! ### Reachability and the key-index invariant -/

/-- The consistency invariant of a `Map`: the key slice is strictly
sorted, its members are exactly the keys with a binding in the store, and
every stored reference points into the heap. -/
def MapInv (st : MapState) (h : Heap) : Prop :=
  List.Pairwise keyLt st.keys ∧
  (∀ k, k ∈ st.keys ↔ (lookupStore st.m k).isSome) ∧
  (∀ k r, lookupStore st.m k = some r → r < h.length)

/-- States reachable from a fresh `Map` by any sequence of the public
operations.  `alloc` models creation of a variable elsewhere in the
program; `set` requires the caller to hand over a real (allocated)
`Var`. -/
inductive MapReach : MapState → Heap → Prop where
  | init : MapReach { m := [], keys := [] } []
  | alloc {st h v} : MapReach st h → MapReach st (h ++ [v])
  | set {st h key r} : MapReach st h → r < h.length →
      MapReach (mapSet st key r) h
  | add {st h key delta} : MapReach st h →
      MapReach (mapAdd st h key delta).1 (mapAdd st h key delta).2
  | addFloat {st h key delta} : MapReach st h →
      MapReach (mapAddFloat st h key delta).1 (mapAddFloat st h key delta).2
  | del {st h key} : MapReach st h → MapReach (mapDelete st key) h
  | initOp {st h} : MapReach st h → MapReach (mapInit st) h

/-- The consistency invariant of the `Bucket` registry, same shape as
`MapInv`. -/
def BucketInv (st : BucketState) (h : Heap) : Prop :=
  List.Pairwise keyLt st.varKeys ∧
  (∀ k, k ∈ st.varKeys ↔ (lookupStore st.vars k).isSome) ∧
  (∀ k r, lookupStore st.vars k = some r → r < h.length)

/-- States reachable from a fresh `Bucket` by allocation and successful
`Publish` calls (the typed constructors reduce to these two). -/
inductive BucketReach : BucketState → Heap → Prop where
  | init : BucketReach { vars := [], varKeys := [] } []
  | alloc {st h v} : BucketReach st h → BucketReach st (h ++ [v])
  | publish {st h name r st2} : BucketReach st h → r < h.length →
      bucketPublish st name r = some st2 → BucketReach st2 h

theorem mapSet_inv {st : MapState} {h : Heap} {key : String} {r : Ref}
    (hi : MapInv st h) (hr : r < h.length) : MapInv (mapSet st key r) h := by
  obtain ⟨hsorted, hmem, hbound⟩ := hi
  unfold mapSet
  by_cases hl : (lookupStore st.m key).isNone
  · rw [if_pos hl]
    refine ⟨sorted_addKeyList _ _ hsorted, ?_, ?_⟩
    · intro k
      rw [mem_addKeyList, lookup_storeSet]
      by_cases hk : k = key
      · simp [hk]
      · rw [if_neg hk, hmem k]
        simp [hk]
    · intro k r2
      rw [lookup_storeSet]
      by_cases hk : k = key
      · rw [if_pos hk]
        intro he
        cases he
        exact hr
      · rw [if_neg hk]
        exact hbound k r2
  · rw [if_neg hl]
    refine ⟨hsorted, ?_, ?_⟩
    · intro k
      rw [lookup_storeSet]
      by_cases hk : k = key
      · subst hk
        rw [if_pos rfl]
        simp only [Option.isSome_some, iff_true]
        rw [hmem k]
        cases hcase : lookupStore st.m k with
        | none => rw [hcase] at hl; simp at hl
        | some v => simp
      · rw [if_neg hk]
        exact hmem k
    · intro k r2
      rw [lookup_storeSet]
      by_cases hk : k = key
      · rw [if_pos hk]
        intro he
        cases he
        exact hr
      · rw [if_neg hk]
        exact hbound k r2

theorem mapAdd_eq_of_none {st : MapState} {h : Heap} {key : String}
    {delta : Int} (hcase : lookupStore st.m key = none) :
    mapAdd st h key delta =
      ({ m := storeSet st.m key h.length, keys := addKeyList st.keys key },
        (h ++ [VarVal.intV 0]).set h.length (VarVal.intV (wrap64 (0 + delta)))) := by
  unfold mapAdd
  simp only [hcase]

theorem mapAdd_eq_of_int {st : MapState} {h : Heap} {key : String}
    {delta : Int} {r : Ref} {n : Int} (hcase : lookupStore st.m key = some r)
    (hg : h.get? r = some (VarVal.intV n)) :
    mapAdd st h key delta = (st, h.set r (VarVal.intV (wrap64 (n + delta)))) := by
  unfold mapAdd
  simp only [hcase, hg]

theorem mapAdd_eq_of_other {st : MapState} {h : Heap} {key : String}
    {delta : Int} {r : Ref} {v : VarVal} (hcase : lookupStore st.m key = some r)
    (hg : h.get? r = some v) (hv : ∀ n, v ≠ VarVal.intV n) :
    mapAdd st h key delta = (st, h) := by
  unfold mapAdd
  simp only [hcase, hg]
  cases v with
  | intV n => exact absurd rfl (hv n)
  | floatV x => rfl
  | strV s => rfl
  | mapV st2 => rfl
  | funcV r2 => rfl

theorem mapAdd_eq_of_dangling {st : MapState} {h : Heap} {key : String}
    {delta : Int} {r : Ref} (hcase : lookupStore st.m key = some r)
    (hg : h.get? r = none) : mapAdd st h key delta = (st, h) := by
  unfold mapAdd
  simp only [hcase, hg]

theorem mapAddFloat_eq_of_none {st : MapState} {h : Heap} {key : String}
    {delta : Rat} (hcase : lookupStore st.m key = none) :
    mapAddFloat st h key delta =
      ({ m := storeSet st.m key h.length, keys := addKeyList st.keys key },
        (h ++ [VarVal.floatV 0]).set h.length (VarVal.floatV (0 + delta))) := by
  unfold mapAddFloat
  simp only [hcase]

theorem mapAddFloat_eq_of_float {st : MapState} {h : Heap} {key : String}
    {delta : Rat} {r : Ref} {x : Rat} (hcase : lookupStore st.m key = some r)
    (hg : h.get? r = some (VarVal.floatV x)) :
    mapAddFloat st h key delta = (st, h.set r (VarVal.floatV (x + delta))) := by
  unfold mapAddFloat
  simp only [hcase, hg]

theorem mapAddFloat_eq_of_other {st : MapState} {h : Heap} {key : String}
    {delta : Rat} {r : Ref} {v : VarVal} (hcase : lookupStore st.m key = some r)
    (hg : h.get? r = some v) (hv : ∀ x, v ≠ VarVal.floatV x) :
    mapAddFloat st h key delta = (st, h) := by
  unfold mapAddFloat
  simp only [hcase, hg]
  cases v with
  | intV n => rfl
  | floatV x => exact absurd rfl (hv x)
  | strV s => rfl
  | mapV st2 => rfl
  | funcV r2 => rfl

theorem mapAddFloat_eq_of_dangling {st : MapState} {h : Heap} {key : String}
    {delta : Rat} {r : Ref} (hcase : lookupStore st.m key = some r)
    (hg : h.get? r = none) : mapAddFloat st h key delta = (st, h) := by
  unfold mapAddFloat
  simp only [hcase, hg]

theorem addAbsent_inv {st : MapState} {h : Heap} {key : String} {v0 v1 : VarVal}
    (hi : MapInv st h) (_hcase : lookupStore st.m key = none) :
    MapInv { m := storeSet st.m key h.length, keys := addKeyList st.keys key }
      ((h ++ [v0]).set h.length v1) := by
  obtain ⟨hsorted, hmem, hbound⟩ := hi
  have hlen : ((h ++ [v0]).set h.length v1).length = h.length + 1 := by
    rw [List.length_set, List.length_append]
    rfl
  refine ⟨sorted_addKeyList _ _ hsorted, ?_, ?_⟩
  · intro k
    rw [mem_addKeyList, lookup_storeSet]
    by_cases hk : k = key
    · simp [hk]
    · rw [if_neg hk, hmem k]
      simp [hk]
  · intro k r2
    rw [lookup_storeSet, hlen]
    by_cases hk : k = key
    · rw [if_pos hk]
      intro he
      cases he
      exact Nat.lt_succ_self _
    · rw [if_neg hk]
      intro he
      exact Nat.lt_succ_of_lt (hbound k r2 he)

theorem mapAdd_inv {st : MapState} {h : Heap} {key : String} {delta : Int}
    (hi : MapInv st h) :
    MapInv (mapAdd st h key delta).1 (mapAdd st h key delta).2 := by
  cases hcase : lookupStore st.m key with
  | none =>
    rw [mapAdd_eq_of_none hcase]
    exact addAbsent_inv hi hcase
  | some r =>
    cases hg : h.get? r with
    | none =>
      rw [mapAdd_eq_of_dangling hcase hg]
      exact hi
    | some v =>
      cases v with
      | intV n =>
        rw [mapAdd_eq_of_int hcase hg]
        obtain ⟨hsorted, hmem, hbound⟩ := hi
        refine ⟨hsorted, hmem, ?_⟩
        intro k r2 hlk
        rw [List.length_set]
        exact hbound k r2 hlk
      | floatV x =>
        rw [mapAdd_eq_of_other hcase hg (by intro n he; cases he)]
        exact hi
      | strV s =>
        rw [mapAdd_eq_of_other hcase hg (by intro n he; cases he)]
        exact hi
      | mapV st2 =>
        rw [mapAdd_eq_of_other hcase hg (by intro n he; cases he)]
        exact hi
      | funcV r2 =>
        rw [mapAdd_eq_of_other hcase hg (by intro n he; cases he)]
        exact hi

theorem mapAddFloat_inv {st : MapState} {h : Heap} {key : String} {delta : Rat}
    (hi : MapInv st h) :
    MapInv (mapAddFloat st h key delta).1 (mapAddFloat st h key delta).2 := by
  cases hcase : lookupStore st.m key with
  | none =>
    rw [mapAddFloat_eq_of_none hcase]
    exact addAbsent_inv hi hcase
  | some r =>
    cases hg : h.get? r with
    | none =>
      rw [mapAddFloat_eq_of_dangling hcase hg]
      exact hi
    | some v =>
      cases v with
      | floatV x =>
        rw [mapAddFloat_eq_of_float hcase hg]
        obtain ⟨hsorted, hmem, hbound⟩ := hi
        refine ⟨hsorted, hmem, ?_⟩
        intro k r2 hlk
        rw [List.length_set]
        exact hbound k r2 hlk
      | intV n =>
        rw [mapAddFloat_eq_of_other hcase hg (by intro x he; cases he)]
        exact hi
      | strV s =>
        rw [mapAddFloat_eq_of_other hcase hg (by intro x he; cases he)]
        exact hi
      | mapV st2 =>
        rw [mapAddFloat_eq_of_other hcase hg (by intro x he; cases he)]
        exact hi
      | funcV r2 =>
        rw [mapAddFloat_eq_of_other hcase hg (by intro x he; cases he)]
        exact hi

theorem mapDelete_inv {st : MapState} {h : Heap} {key : String}
    (hi : MapInv st h) : MapInv (mapDelete st key) h := by
  obtain ⟨hsorted, hmem, hbound⟩ := hi
  obtain ⟨hcnd, herase⟩ := delete_cond_spec st.keys key hsorted
  unfold mapDelete
  by_cases hc : searchStrings st.keys key < st.keys.length ∧
      st.keys.get? (searchStrings st.keys key) = some key
  · rw [if_pos hc]
    have hkmem : key ∈ st.keys := hcnd.mp hc
    have hkeys : st.keys.eraseIdx (searchStrings st.keys key) = st.keys.erase key :=
      herase hkmem
    have hnd : st.keys.Nodup := nodup_of_pairwise_keyLt hsorted
    refine ⟨?_, ?_, ?_⟩
    · rw [hkeys]
      exact hsorted.sublist (List.erase_sublist key st.keys)
    · intro k
      rw [hkeys]
      show k ∈ st.keys.erase key ↔ (lookupStore (storeDelete st.m key) k).isSome
      rw [hnd.mem_erase_iff, lookup_storeDelete]
      by_cases hk : k = key
      · simp [hk]
      · rw [if_neg hk, hmem k]
        simp [hk]
    · intro k r2
      show lookupStore (storeDelete st.m key) k = some r2 → r2 < h.length
      rw [lookup_storeDelete]
      by_cases hk : k = key
      · rw [if_pos hk]
        intro he
        cases he
      · rw [if_neg hk]
        exact hbound k r2
  · rw [if_neg hc]
    exact ⟨hsorted, hmem, hbound⟩

theorem mapInit_inv {st : MapState} {h : Heap} : MapInv (mapInit st) h := by
  refine ⟨List.Pairwise.nil, ?_, ?_⟩
  · intro k
    simp [mapInit, lookupStore]
  · intro k r2
    simp [mapInit, lookupStore]

theorem mapAlloc_inv {st : MapState} {h : Heap} {v : VarVal}
    (hi : MapInv st h) : MapInv st (h ++ [v]) := by
  obtain ⟨hsorted, hmem, hbound⟩ := hi
  refine ⟨hsorted, hmem, ?_⟩
  intro k r2 hlk
  rw [List.length_append]
  simp only [List.length_cons, List.length_nil]
  exact Nat.lt_succ_of_lt (hbound k r2 hlk)

/-- Every reachable Map state satisfies the key-index invariant. -/
theorem mapReach_inv {st : MapState} {h : Heap} (hr : MapReach st h) :
    MapInv st h := by
  induction hr with
  | init =>
    refine ⟨List.Pairwise.nil, ?_, ?_⟩
    · intro k
      simp [lookupStore]
    · intro k r2
      simp [lookupStore]
  | alloc _ ih => exact mapAlloc_inv ih
  | set _ hrb ih => exact mapSet_inv ih hrb
  | add _ ih => exact mapAdd_inv ih
  | addFloat _ ih => exact mapAddFloat_inv ih
  | del _ ih => exact mapDelete_inv ih
  | initOp _ ih => exact mapInit_inv

theorem bucketPublish_inv {st st2 : BucketState} {h : Heap} {name : String}
    {r : Ref} (hi : BucketInv st h) (hr : r < h.length)
    (hp : bucketPublish st name r = some st2) : BucketInv st2 h := by
  obtain ⟨hsorted, hmem, hbound⟩ := hi
  unfold bucketPublish at hp
  cases hcase : lookupStore st.vars name with
  | some r2 =>
    rw [hcase] at hp
    simp at hp
  | none =>
    rw [hcase] at hp
    have hst2 := Option.some.inj hp
    subst hst2
    have hnm : name ∉ st.varKeys := by
      intro hmm
      rw [hmem name, hcase] at hmm
      simp at hmm
    have hnd : (st.varKeys ++ [name]).Nodup := by
      rw [List.nodup_append]
      refine ⟨nodup_of_pairwise_keyLt hsorted, List.nodup_singleton name, ?_⟩
      intro a ha hb
      rw [List.mem_singleton] at hb
      subst hb
      exact hnm ha
    have hperm : List.Perm (sortStrings (st.varKeys ++ [name]))
        (st.varKeys ++ [name]) := List.perm_insertionSort keyLe _
    refine ⟨?_, ?_, ?_⟩
    · apply pairwise_keyLt_of_le_nodup
      · exact List.sorted_insertionSort keyLe (st.varKeys ++ [name])
      · exact hperm.nodup_iff.mpr hnd
    · intro k
      show k ∈ sortStrings (st.varKeys ++ [name]) ↔
        (lookupStore (storeSet st.vars name r) k).isSome
      rw [hperm.mem_iff, List.mem_append, List.mem_singleton, lookup_storeSet]
      by_cases hk : k = name
      · simp [hk]
      · rw [if_neg hk, hmem k]
        simp [hk]
    · intro k r2
      show lookupStore (storeSet st.vars name r) k = some r2 → r2 < h.length
      rw [lookup_storeSet]
      by_cases hk : k = name
      · rw [if_pos hk]
        intro he
        cases he
        exact hr
      · rw [if_neg hk]
        exact hbound k r2

/-- Every reachable Bucket state satisfies the key-index invariant. -/
theorem bucketReach_inv {st : BucketState} {h : Heap} (hr : BucketReach st h) :
    BucketInv st h := by
  induction hr with
  | init =>
    refine ⟨List.Pairwise.nil, ?_, ?_⟩
    · intro k
      simp [lookupStore]
    · intro k r2
      simp [lookupStore]
  | alloc _ ih =>
    obtain ⟨hsorted, hmem, hbound⟩ := ih
    refine ⟨hsorted, hmem, ?_⟩
    intro k r2 hlk
    rw [List.length_append]
    simp only [List.length_cons, List.length_nil]
    exact Nat.lt_succ_of_lt (hbound k r2 hlk)
  | publish _ hrb hp ih => exact bucketPublish_inv ih hrb hp

/-- A walk over keys that all resolve to heap values succeeds and visits
exactly those keys in order. -/
theorem doWalk_ok {h : Heap} {store : List (String × Ref)} {ks : List String}
    (hk : ∀ k, k ∈ ks → ∃ r, lookupStore store k = some r ∧ r < h.length) :
    ∃ kvs, doWalk h store ks = some kvs ∧ kvs.map Prod.fst = ks := by
  induction ks with
  | nil => exact ⟨[], rfl, rfl⟩
  | cons k ks ih =>
    obtain ⟨r, hlk, hrb⟩ := hk k (List.mem_cons_self k ks)
    obtain ⟨v, hv⟩ : ∃ v, h.get? r = some v :=
      ⟨h.get ⟨r, hrb⟩, List.get?_eq_get hrb⟩
    obtain ⟨kvs, hdw, hmap⟩ := ih (fun k2 hk2 => hk k2 (List.mem_cons_of_mem _ hk2))
    refine ⟨(k, v) :: kvs, ?_, ?_⟩
    · unfold doWalk
      simp only [hlk, hv, hdw]
      rfl
    · simp [hmap]

theorem setConcat (h : Heap) (v w : VarVal) :
    (h ++ [v]).set h.length w = h ++ [w] := by
  induction h with
  | nil => rfl
  | cons a t ih => simp [List.set, ih]

theorem wrap64_eq_self {i : Int} (h1 : -(2 ^ 63) ≤ i) (h2 : i < 2 ^ 63) :
    wrap64 i = i := by
  unfold wrap64
  have hp : (2 : Int) ^ 64 = 2 ^ 63 * 2 := by rw [pow_succ]
  rw [Int.emod_eq_of_lt (by linarith) (by rw [hp]; linarith)]
  exact add_sub_cancel_right i (2 ^ 63)

/-- In every reachable Map state the Do walk succeeds and visits exactly
the key slice. -/
theorem mapDo_ok {st : MapState} {h : Heap} (hr : MapReach st h) :
    ∃ kvs, mapDo st h = some kvs ∧ kvs.map Prod.fst = st.keys := by
  obtain ⟨_, hm, hb⟩ := mapReach_inv hr
  exact doWalk_ok (fun k hk => by
    obtain ⟨r, hr2⟩ := Option.isSome_iff_exists.mp ((hm k).mp hk)
    exact ⟨r, hr2, hb k r hr2⟩)

/-- In every reachable Bucket state the Do walk succeeds and visits
exactly the key slice. -/
theorem bucketDo_ok {st : BucketState} {h : Heap} (hr : BucketReach st h) :
    ∃ kvs, bucketDo st h = some kvs ∧ kvs.map Prod.fst = st.varKeys := by
  obtain ⟨_, hm, hb⟩ := bucketReach_inv hr
  exact doWalk_ok (fun k hk => by
    obtain ⟨r, hr2⟩ := Option.isSome_iff_exists.mp ((hm k).mp hk)
    exact ⟨r, hr2, hb k r hr2⟩)

theorem someTriple_inj {r r2 : Ref} {st1 st2 : BucketState} {h1 h2 : Heap}
    (he : (some (r, st1, h1) : Option (Ref × BucketState × Heap)) =
      some (r2, st2, h2)) : r = r2 ∧ st1 = st2 ∧ h1 = h2 := by
  have htup := Option.some.inj he
  exact ⟨congrArg Prod.fst htup, congrArg (fun p => p.2.1) htup,
    congrArg (fun p => p.2.2) htup⟩

/-- A successful Publish binds the name to the published reference. -/
theorem bucketGet_after_publish {st st2 : BucketState} {name : String}
    {r : Ref} (hp : bucketPublish st name r = some st2) :
    bucketGet st2 name = some r := by
  unfold bucketPublish at hp
  cases hc : lookupStore st.vars name with
  | some r0 =>
    rw [hc] at hp
    cases hp
  | none =>
    rw [hc] at hp
    have he := Option.some.inj hp
    subst he
    show lookupStore (storeSet st.vars name r) name = some r
    rw [lookup_storeSet, if_pos rfl]

theorem bucketNewInt_hit {st : BucketState} {h : Heap} {name : String}
    {r : Ref} {n : Int} (hg : bucketGet st name = some r)
    (hv : h.get? r = some (VarVal.intV n)) :
    bucketNewInt st h name = some (r, st, h) := by
  unfold bucketNewInt
  simp only [hg, hv]

theorem bucketNewInt_none {st : BucketState} {h : Heap} {name : String}
    {r : Ref} {v : VarVal} (hg : bucketGet st name = some r)
    (hv : h.get? r = some v) (hni : ∀ n, v ≠ VarVal.intV n) :
    bucketNewInt st h name = none := by
  unfold bucketNewInt
  simp only [hg, hv]
  cases v with
  | intV n => exact absurd rfl (hni n)
  | floatV x => rfl
  | strV s => rfl
  | mapV st2 => rfl
  | funcV r2 => rfl

theorem bucketNewString_hit {st : BucketState} {h : Heap} {name : String}
    {r : Ref} {s : Option String} (hg : bucketGet st name = some r)
    (hv : h.get? r = some (VarVal.strV s)) :
    bucketNewString st h name = some (r, st, h) := by
  unfold bucketNewString
  simp only [hg, hv]

theorem bucketNewMap_hit {st : BucketState} {h : Heap} {name : String}
    {r : Ref} {ms : MapState} (hg : bucketGet st name = some r)
    (hv : h.get? r = some (VarVal.mapV ms)) :
    bucketNewMap st h name = some (r, st, h) := by
  unfold bucketNewMap
  simp only [hg, hv]

theorem bucketNewFloat_hit {st : BucketState} {h : Heap} {name : String}
    {r : Ref} {x : Rat} (hg : bucketGet st name = some r)
    (hv : (h ++ [VarVal.floatV 0]).get? r = some (VarVal.floatV x)) :
    bucketNewFloat st h name = some (r, st, h ++ [VarVal.floatV 0]) := by
  unfold bucketNewFloat
  simp only [hg, hv]

/-! ### The claims -/

/-- C1: For every Map (and the Bucket registry), after any sequence of
Set, Add, AddFloat, Delete, Init, and Publish operations, the sorted key
list contains exactly the set of keys present in the key-value store: no
key appears in the list but not the store, none in the store but not the
list, and the list is strictly ascending in the byte-wise lexicographic
order, hence duplicate-free. -/
theorem c1_key_index_exact :
    (∀ (st : MapState) (h : Heap), MapReach st h →
      List.Pairwise keyLt st.keys ∧ st.keys.Nodup ∧
      ∀ k, (k ∈ st.keys ↔ (lookupStore st.m k).isSome)) ∧
    (∀ (st : BucketState) (h : Heap), BucketReach st h →
      List.Pairwise keyLt st.varKeys ∧ st.varKeys.Nodup ∧
      ∀ k, (k ∈ st.varKeys ↔ (lookupStore st.vars k).isSome)) := by
  constructor
  · intro st h hr
    obtain ⟨hs, hm, _⟩ := mapReach_inv hr
    exact ⟨hs, nodup_of_pairwise_keyLt hs, hm⟩
  · intro st h hr
    obtain ⟨hs, hm, _⟩ := bucketReach_inv hr
    exact ⟨hs, nodup_of_pairwise_keyLt hs, hm⟩

theorem c1_key_index_exact_witness :
    List.Pairwise keyLt (mapSet { m := [], keys := [] } "a" 0).keys ∧
    (mapSet { m := [], keys := [] } "a" 0).keys.Nodup ∧
    ("a" ∈ (mapSet { m := [], keys := [] } "a" 0).keys ↔
      (lookupStore (mapSet { m := [], keys := [] } "a" 0).m "a").isSome) := by
  have hre : MapReach (mapSet { m := [], keys := [] } "a" 0)
      ([] ++ [VarVal.intV 5]) :=
    MapReach.set (MapReach.alloc MapReach.init) (by decide)
  obtain ⟨hs, hn, hm⟩ := c1_key_index_exact.1 _ _ hre
  exact ⟨hs, hn, hm "a"⟩

/-- C2: For every Map and every Bucket, Do invokes the visitor exactly
once per key currently present, in strictly ascending lexicographic key
order, and the set of visited keys equals the set of keys present when
the iteration starts. -/
theorem c2_do_sorted_visit :
    (∀ (st : MapState) (h : Heap), MapReach st h →
      ∃ kvs, mapDo st h = some kvs ∧ kvs.map Prod.fst = st.keys ∧
        List.Pairwise keyLt (kvs.map Prod.fst) ∧
        (kvs.map Prod.fst).Nodup ∧
        ∀ k, (k ∈ kvs.map Prod.fst ↔ (lookupStore st.m k).isSome)) ∧
    (∀ (st : BucketState) (h : Heap), BucketReach st h →
      ∃ kvs, bucketDo st h = some kvs ∧ kvs.map Prod.fst = st.varKeys ∧
        List.Pairwise keyLt (kvs.map Prod.fst) ∧
        (kvs.map Prod.fst).Nodup ∧
        ∀ k, (k ∈ kvs.map Prod.fst ↔ (lookupStore st.vars k).isSome)) := by
  constructor
  · intro st h hr
    obtain ⟨hs, hm, _⟩ := mapReach_inv hr
    obtain ⟨kvs, hdw, hmap⟩ := mapDo_ok hr
    refine ⟨kvs, hdw, hmap, ?_, ?_, ?_⟩
    · rw [hmap]
      exact hs
    · rw [hmap]
      exact nodup_of_pairwise_keyLt hs
    · intro k
      rw [hmap]
      exact hm k
  · intro st h hr
    obtain ⟨hs, hm, _⟩ := bucketReach_inv hr
    obtain ⟨kvs, hdw, hmap⟩ := bucketDo_ok hr
    refine ⟨kvs, hdw, hmap, ?_, ?_, ?_⟩
    · rw [hmap]
      exact hs
    · rw [hmap]
      exact nodup_of_pairwise_keyLt hs
    · intro k
      rw [hmap]
      exact hm k

theorem c2_do_sorted_visit_witness :
    ∃ kvs, mapDo (mapSet { m := [], keys := [] } "b" 0) ([] ++ [VarVal.intV 7]) =
        some kvs ∧
      kvs.map Prod.fst = (mapSet { m := [], keys := [] } "b" 0).keys ∧
      List.Pairwise keyLt (kvs.map Prod.fst) ∧
      (kvs.map Prod.fst).Nodup ∧
      ∀ k, (k ∈ kvs.map Prod.fst ↔
        (lookupStore (mapSet { m := [], keys := [] } "b" 0).m k).isSome) := by
  have hre : MapReach (mapSet { m := [], keys := [] } "b" 0)
      ([] ++ [VarVal.intV 7]) :=
    MapReach.set (MapReach.alloc MapReach.init) (by decide)
  exact c2_do_sorted_visit.1 _ _ hre

/-- C7: During any Do iteration over a Map or Bucket, looking up each key
of the key list in the store always yields a value: in every reachable
state the iteration never crashes on a key present in the index without a
loadable value (the walk, modelled as `none` exactly when the unchecked
type assertion would panic, always succeeds). -/
theorem c7_do_never_crashes :
    (∀ (st : MapState) (h : Heap), MapReach st h → (mapDo st h).isSome) ∧
    (∀ (st : BucketState) (h : Heap), BucketReach st h →
      (bucketDo st h).isSome) := by
  constructor
  · intro st h hr
    obtain ⟨kvs, hdw, _⟩ := mapDo_ok hr
    rw [hdw]
    rfl
  · intro st h hr
    obtain ⟨kvs, hdw, _⟩ := bucketDo_ok hr
    rw [hdw]
    rfl

theorem c7_do_never_crashes_witness :
    (mapDo (mapSet { m := [], keys := [] } "c" 0) ([] ++ [VarVal.strV none])).isSome ∧
    (bucketDo { vars := [("n", 0)], varKeys := ["n"] }
      ([] ++ [VarVal.intV 0])).isSome := by
  have hre : MapReach (mapSet { m := [], keys := [] } "c" 0)
      ([] ++ [VarVal.strV none]) :=
    MapReach.set (MapReach.alloc MapReach.init) (by decide)
  have hrb : BucketReach { vars := [("n", 0)], varKeys := ["n"] }
      ([] ++ [VarVal.intV 0]) :=
    @BucketReach.publish { vars := [], varKeys := [] } ([] ++ [VarVal.intV 0])
      "n" 0 { vars := [("n", 0)], varKeys := ["n"] }
      (BucketReach.alloc BucketReach.init) (by decide) (by decide)
  exact ⟨c7_do_never_crashes.1 _ _ hre, c7_do_never_crashes.2 _ _ hrb⟩

/-- C4: For every Bucket and every name already registered, a second
Publish of that name aborts with the fatal log.Panicln (modelled as
`none`) and never silently overwrites: no successor state exists, so
after the failed Publish, Get still returns the originally published Var
and the key index is unchanged. -/
theorem c4_publish_duplicate_fatal (st : BucketState) (name : String)
    (r r2 : Ref) (hr : bucketGet st name = some r) :
    bucketPublish st name r2 = none ∧ bucketGet st name = some r ∧
    ∀ st2, ¬ bucketPublish st name r2 = some st2 := by
  have hl : lookupStore st.vars name = some r := hr
  have hnone : bucketPublish st name r2 = none := by
    unfold bucketPublish
    simp only [hl]
  refine ⟨hnone, hr, ?_⟩
  intro st2 hc
  rw [hnone] at hc
  cases hc

theorem c4_publish_duplicate_fatal_witness :
    bucketGet { vars := [("x", 0)], varKeys := ["x"] } "x" = some 0 ∧
    bucketPublish { vars := [("x", 0)], varKeys := ["x"] } "x" 1 = none := by
  have happ := c4_publish_duplicate_fatal { vars := [("x", 0)], varKeys := ["x"] }
    "x" 0 1 (by decide)
  exact ⟨by decide, happ.1⟩

/-- C5: Map.Add on an absent key creates a fresh zero-valued Int under
that key and adds delta, so Get then yields that Int with value delta
(delta being an int64, in range); on a key bound to a non-Int the call is
a no-op that leaves map and heap unchanged; the analogous property holds
for AddFloat with Float. -/
theorem c5_add_semantics (st : MapState) (h : Heap) (key : String)
    (di : Int) (df : Rat) (hdi : -(2 ^ 63) ≤ di ∧ di < 2 ^ 63) :
    (lookupStore st.m key = none →
      mapGet (mapAdd st h key di).1 key = some h.length ∧
      ((mapAdd st h key di).2).get? h.length = some (VarVal.intV di)) ∧
    (∀ r v, lookupStore st.m key = some r → h.get? r = some v →
      (∀ n, v ≠ VarVal.intV n) → mapAdd st h key di = (st, h)) ∧
    (lookupStore st.m key = none →
      mapGet (mapAddFloat st h key df).1 key = some h.length ∧
      ((mapAddFloat st h key df).2).get? h.length = some (VarVal.floatV df)) ∧
    (∀ r v, lookupStore st.m key = some r → h.get? r = some v →
      (∀ x, v ≠ VarVal.floatV x) → mapAddFloat st h key df = (st, h)) := by
  refine ⟨?_, ?_, ?_, ?_⟩
  · intro hc
    rw [mapAdd_eq_of_none hc]
    constructor
    · show lookupStore (storeSet st.m key h.length) key = some h.length
      rw [lookup_storeSet, if_pos rfl]
    · show ((h ++ [VarVal.intV 0]).set h.length
        (VarVal.intV (wrap64 (0 + di)))).get? h.length = some (VarVal.intV di)
      rw [setConcat, List.get?_concat_length, zero_add,
        wrap64_eq_self hdi.1 hdi.2]
  · intro r v hcl hg hv
    exact mapAdd_eq_of_other hcl hg hv
  · intro hc
    rw [mapAddFloat_eq_of_none hc]
    constructor
    · show lookupStore (storeSet st.m key h.length) key = some h.length
      rw [lookup_storeSet, if_pos rfl]
    · show ((h ++ [VarVal.floatV 0]).set h.length
        (VarVal.floatV (0 + df))).get? h.length = some (VarVal.floatV df)
      rw [setConcat, List.get?_concat_length, zero_add]
  · intro r v hcl hg hv
    exact mapAddFloat_eq_of_other hcl hg hv

theorem c5_add_semantics_witness :
    (-(2 ^ 63) ≤ (7 : Int) ∧ (7 : Int) < 2 ^ 63) ∧
    (mapGet (mapAdd { m := [], keys := [] } [] "k" 7).1 "k" = some 0 ∧
      ((mapAdd { m := [], keys := [] } [] "k" 7).2).get? 0 =
        some (VarVal.intV 7)) := by
  refine ⟨by decide, ?_⟩
  exact (c5_add_semantics { m := [], keys := [] } [] "k" 7 2 (by decide)).1 rfl

/-- C8: For every Bucket and every name, the typed constructors are
idempotent: a successful NewInt followed by a second NewInt for the same
name yields the very same heap reference (the identical instance, so
mutations through either handle are reads and writes of the same cell),
and likewise for NewFloat, NewString and NewMap. -/
theorem c8_new_idempotent (st : BucketState) (h : Heap) (name : String) :
    (∀ r st1 h1, bucketNewInt st h name = some (r, st1, h1) →
      ∃ st2 h2, bucketNewInt st1 h1 name = some (r, st2, h2)) ∧
    (∀ r st1 h1, bucketNewFloat st h name = some (r, st1, h1) →
      ∃ st2 h2, bucketNewFloat st1 h1 name = some (r, st2, h2)) ∧
    (∀ r st1 h1, bucketNewString st h name = some (r, st1, h1) →
      ∃ st2 h2, bucketNewString st1 h1 name = some (r, st2, h2)) ∧
    (∀ r st1 h1, bucketNewMap st h name = some (r, st1, h1) →
      ∃ st2 h2, bucketNewMap st1 h1 name = some (r, st2, h2)) := by
  refine ⟨?_, ?_, ?_, ?_⟩
  · intro r st1 h1 hfirst
    cases hg0 : bucketGet st name with
    | some r0 =>
      cases hv0 : h.get? r0 with
      | none =>
        have hne : bucketNewInt st h name = none := by
          unfold bucketNewInt
          simp only [hg0, hv0]
        rw [hne] at hfirst
        cases hfirst
      | some v =>
        cases v with
        | intV n =>
          have hit1 := bucketNewInt_hit hg0 hv0
          rw [hit1] at hfirst
          obtain ⟨he1, he2, he3⟩ := someTriple_inj hfirst
          subst he1
          subst he2
          subst he3
          exact ⟨_, _, hit1⟩
        | floatV x =>
          rw [bucketNewInt_none hg0 hv0 (fun n he => by cases he)] at hfirst
          cases hfirst
        | strV s =>
          rw [bucketNewInt_none hg0 hv0 (fun n he => by cases he)] at hfirst
          cases hfirst
        | mapV ms =>
          rw [bucketNewInt_none hg0 hv0 (fun n he => by cases he)] at hfirst
          cases hfirst
        | funcV fr =>
          rw [bucketNewInt_none hg0 hv0 (fun n he => by cases he)] at hfirst
          cases hfirst
    | none =>
      unfold bucketNewInt at hfirst
      simp only [hg0] at hfirst
      cases hpp : bucketPublish st name h.length with
      | none =>
        rw [hpp] at hfirst
        cases hfirst
      | some stp =>
        rw [hpp, Option.map_some'] at hfirst
        obtain ⟨he1, he2, he3⟩ := someTriple_inj hfirst
        subst he1
        subst he2
        subst he3
        exact ⟨_, _, bucketNewInt_hit (bucketGet_after_publish hpp)
          (List.get?_concat_length h (VarVal.intV 0))⟩
  · intro r st1 h1 hfirst
    cases hg0 : bucketGet st name with
    | some r0 =>
      cases hv0 : (h ++ [VarVal.floatV 0]).get? r0 with
      | none =>
        have hne : bucketNewFloat st h name = none := by
          unfold bucketNewFloat
          simp only [hg0, hv0]
        rw [hne] at hfirst
        cases hfirst
      | some v =>
        cases v with
        | floatV x =>
          have hit1 := bucketNewFloat_hit hg0 hv0
          rw [hit1] at hfirst
          obtain ⟨he1, he2, he3⟩ := someTriple_inj hfirst
          subst he1
          subst he2
          subst he3
          obtain ⟨hlt, _⟩ := List.get?_eq_some.mp hv0
          have hv2 := hv0
          rw [(List.get?_append hlt :
            ((h ++ [VarVal.floatV 0]) ++ [VarVal.floatV 0]).get? _ =
              (h ++ [VarVal.floatV 0]).get? _).symm] at hv2
          exact ⟨_, _, bucketNewFloat_hit hg0 hv2⟩
        | intV n =>
          have hne : bucketNewFloat st h name = none := by
            unfold bucketNewFloat
            simp only [hg0, hv0]
          rw [hne] at hfirst
          cases hfirst
        | strV s =>
          have hne : bucketNewFloat st h name = none := by
            unfold bucketNewFloat
            simp only [hg0, hv0]
          rw [hne] at hfirst
          cases hfirst
        | mapV ms =>
          have hne : bucketNewFloat st h name = none := by
            unfold bucketNewFloat
            simp only [hg0, hv0]
          rw [hne] at hfirst
          cases hfirst
        | funcV fr =>
          have hne : bucketNewFloat st h name = none := by
            unfold bucketNewFloat
            simp only [hg0, hv0]
          rw [hne] at hfirst
          cases hfirst
    | none =>
      unfold bucketNewFloat at hfirst
      simp only [hg0] at hfirst
      cases hpp : bucketPublish st name h.length with
      | none =>
        rw [hpp] at hfirst
        cases hfirst
      | some stp =>
        rw [hpp, Option.map_some'] at hfirst
        obtain ⟨he1, he2, he3⟩ := someTriple_inj hfirst
        subst he1
        subst he2
        subst he3
        have hlt : h.length < (h ++ [VarVal.floatV 0]).length := by
          rw [List.length_append]
          exact Nat.lt_succ_self _
        have hv2 : ((h ++ [VarVal.floatV 0]) ++ [VarVal.floatV 0]).get? h.length =
            some (VarVal.floatV 0) := by
          rw [List.get?_append hlt]
          exact List.get?_concat_length h (VarVal.floatV 0)
        exact ⟨_, _, bucketNewFloat_hit (bucketGet_after_publish hpp) hv2⟩
  · intro r st1 h1 hfirst
    cases hg0 : bucketGet st name with
    | some r0 =>
      cases hv0 : h.get? r0 with
      | none =>
        have hne : bucketNewString st h name = none := by
          unfold bucketNewString
          simp only [hg0, hv0]
        rw [hne] at hfirst
        cases hfirst
      | some v =>
        cases v with
        | strV s =>
          have hit1 := bucketNewString_hit hg0 hv0
          rw [hit1] at hfirst
          obtain ⟨he1, he2, he3⟩ := someTriple_inj hfirst
          subst he1
          subst he2
          subst he3
          exact ⟨_, _, hit1⟩
        | intV n =>
          have hne : bucketNewString st h name = none := by
            unfold bucketNewString
            simp only [hg0, hv0]
          rw [hne] at hfirst
          cases hfirst
        | floatV x =>
          have hne : bucketNewString st h name = none := by
            unfold bucketNewString
            simp only [hg0, hv0]
          rw [hne] at hfirst
          cases hfirst
        | mapV ms =>
          have hne : bucketNewString st h name = none := by
            unfold bucketNewString
            simp only [hg0, hv0]
          rw [hne] at hfirst
          cases hfirst
        | funcV fr =>
          have hne : bucketNewString st h name = none := by
            unfold bucketNewString
            simp only [hg0, hv0]
          rw [hne] at hfirst
          cases hfirst
    | none =>
      unfold bucketNewString at hfirst
      simp only [hg0] at hfirst
      cases hpp : bucketPublish st name h.length with
      | none =>
        rw [hpp] at hfirst
        cases hfirst
      | some stp =>
        rw [hpp, Option.map_some'] at hfirst
        obtain ⟨he1, he2, he3⟩ := someTriple_inj hfirst
        subst he1
        subst he2
        subst he3
        exact ⟨_, _, bucketNewString_hit (bucketGet_after_publish hpp)
          (List.get?_concat_length h (VarVal.strV none))⟩
  · intro r st1 h1 hfirst
    cases hg0 : bucketGet st name with
    | some r0 =>
      cases hv0 : h.get? r0 with
      | none =>
        have hne : bucketNewMap st h name = none := by
          unfold bucketNewMap
          simp only [hg0, hv0]
        rw [hne] at hfirst
        cases hfirst
      | some v =>
        cases v with
        | mapV ms =>
          have hit1 := bucketNewMap_hit hg0 hv0
          rw [hit1] at hfirst
          obtain ⟨he1, he2, he3⟩ := someTriple_inj hfirst
          subst he1
          subst he2
          subst he3
          exact ⟨_, _, hit1⟩
        | intV n =>
          have hne : bucketNewMap st h name = none := by
            unfold bucketNewMap
            simp only [hg0, hv0]
          rw [hne] at hfirst
          cases hfirst
        | floatV x =>
          have hne : bucketNewMap st h name = none := by
            unfold bucketNewMap
            simp only [hg0, hv0]
          rw [hne] at hfirst
          cases hfirst
        | strV s =>
          have hne : bucketNewMap st h name = none := by
            unfold bucketNewMap
            simp only [hg0, hv0]
          rw [hne] at hfirst
          cases hfirst
        | funcV fr =>
          have hne : bucketNewMap st h name = none := by
            unfold bucketNewMap
            simp only [hg0, hv0]
          rw [hne] at hfirst
          cases hfirst
    | none =>
      unfold bucketNewMap at hfirst
      simp only [hg0] at hfirst
      cases hpp : bucketPublish st name h.length with
      | none =>
        rw [hpp] at hfirst
        cases hfirst
      | some stp =>
        rw [hpp, Option.map_some'] at hfirst
        obtain ⟨he1, he2, he3⟩ := someTriple_inj hfirst
        subst he1
        subst he2
        subst he3
        exact ⟨_, _, bucketNewMap_hit (bucketGet_after_publish hpp)
          (List.get?_concat_length h (VarVal.mapV { m := [], keys := [] }))⟩

theorem c8_new_idempotent_witness :
    ∃ st2 h2, bucketNewInt { vars := [("n", 0)], varKeys := ["n"] }
      [VarVal.intV 0] "n" = some (0, st2, h2) := by
  have happ := (c8_new_idempotent { vars := [], varKeys := [] } [] "n").1
    0 { vars := [("n", 0)], varKeys := ["n"] } [VarVal.intV 0] (by decide)
  exact happ

/-- C3, observed against the claim: a Map holding the Int 1 under key a
and a Func under key b (a function value, which json.Marshal rejects) has
the failing entry omitted, but `Map.String` writes the ", " separator
before attempting the marshal, so the output keeps a dangling separator:
it is the string with text open-brace, quoted a, colon, 1, comma, space,
close-brace, which differs from the well-formed rendering of the
remaining entries and is not valid JSON.  The Var contract in the source
requires String to return valid JSON, so this is a slip in the code, not
in the claim. -/
theorem c3_map_string_dangling_separator :
    mapString (mapSet (mapSet { m := [], keys := [] } "a" 0) "b" 1)
        [VarVal.intV 1, VarVal.funcV none] = some "\x7b\"a\": 1, \x7d" ∧
    jsonValid "\x7b\"a\": 1, \x7d" = false ∧
    "\x7b\"a\": 1, \x7d" ≠ "\x7b\"a\": 1\x7d" ∧
    jsonValid "\x7b\"a\": 1\x7d" = true := by
  refine ⟨by decide, by decide, by decide, by decide⟩

/-- C6: a Map holding exactly the Int 5 under key a (an Int allocated and
Set to 5) and the String x under key b renders as the object with a
mapped to 5 and b mapped to quoted x, keys in sorted order, and the
output is identical when b is inserted before a. -/
theorem c6_render_sorted_both_orders :
    mapString (mapSet (mapSet { m := [], keys := [] } "a" 0) "b" 1)
        [VarVal.intV (wrap64 5), VarVal.strV (some "x")] =
      some "\x7b\"a\": 5, \"b\": \"x\"\x7d" ∧
    mapString (mapSet (mapSet { m := [], keys := [] } "b" 0) "a" 1)
        [VarVal.strV (some "x"), VarVal.intV (wrap64 5)] =
      some "\x7b\"a\": 5, \"b\": \"x\"\x7d" := by
  refine ⟨by decide, by decide⟩

/-- C9: a Func whose underlying function returns a value json.Marshal
cannot encode yields the empty string from Func.String (the error is
discarded and the nil byte slice converts to the empty string), and a
registry rendering including such a variable emits an empty value after
the key's colon, producing output that is not valid JSON. -/
theorem c9_func_failure_renders_invalid_json :
    funcString none = "" ∧
    expvarRender { vars := [("f", 0)], varKeys := ["f"] } [VarVal.funcV none] =
      some "\x7b\n\"f\": \n\x7d\n" ∧
    jsonValid "\x7b\n\"f\": \n\x7d\n" = false := by
  refine ⟨rfl, by decide, by decide⟩

/-- C10: a freshly created String variable on which Set was never called
has Value equal to the empty string, and its String method returns the
two-character JSON document consisting of two quotation marks, which is
valid JSON. -/
theorem c10_string_default_empty :
    stringValue none = "" ∧ stringString none = "\"\"" ∧
    (stringString none).length = 2 ∧ jsonValid (stringString none) = true := by
  refine ⟨rfl, by decide, by decide, by decide⟩

end Expvar
